import Mathlib

/-
Verification development for new_alarm_cond.c: a multi-group periodic alarm
service built from a shared alarm list, an earliest-deadline alarm thread
(`alarm_thread`), per-group display threads (`display_alarm_thread`), and the
two supervisor loops (`group_display_creation_thread`,
`group_display_removal_thread`).

The C program is shallowly embedded: the singly linked `alarm_t` list becomes
a `List Alarm`; `time_t` values and C `int` fields become mathematical
integers (the values involved are far below any 32/64-bit bound, so machine
overflow plays no role); the mutex-protected shared state becomes explicit
state records, with each lock-protected critical section modelled as one
atomic state-transformer; threads and their interleavings become explicit
step relations.  The condition variable's wakeups are modelled by the `Wake`
outcome of each mutating operation.
-/

/-- The alarm record (`struct alarm_tag`).  The `link` pointer is represented
by the enclosing list structure. -/
structure Alarm where
  seconds : Int
  time : Int
  message : String
  id : Int
  groupId : Int
deriving DecidableEq, Repr

/-- `MAX_GROUPS` from the source. -/
def MAX_GROUPS : Int := 256

/-- Kind of condition-variable wakeup an operation performs:
`pthread_cond_signal` (one waiter), `pthread_cond_broadcast` (all waiters),
or none. -/
inductive Wake
  | noWake
  | signalOne
  | broadcastAll
deriving DecidableEq, Repr

/-- Tail of the insertion loop of `insert_alarm`
(`while (current->link && current->link->id < id) current = current->link;`
followed by splicing the new node after `current`). -/
def insertAfterById (a : Alarm) : List Alarm → List Alarm
  | [] => [a]
  | c :: rest => if c.id < a.id then c :: insertAfterById a rest else a :: c :: rest

/-- The list insertion performed by `insert_alarm`: insert at the front when
the list is empty or the head's id exceeds the new id, otherwise walk the list
by id (the source inserts "in sorted order by id"). -/
def insertById (a : Alarm) : List Alarm → List Alarm
  | [] => [a]
  | b :: rest => if b.id > a.id then a :: b :: rest else b :: insertAfterById a rest

/-- `insert_alarm(id, groupId, seconds, message)`: builds the alarm record
(`time = time(NULL) + seconds`, message truncated to 63 bytes by `strncpy`)
and inserts it into the list by id.  `allocOk` models `malloc` success; on
allocation failure the function prints an error and returns with the list
unchanged.  Note that `insert_alarm` neither reads nor writes `current_alarm`
and performs no condition-variable operation itself. -/
def insert_alarm (now : Int) (allocOk : Bool) (id groupId seconds : Int)
    (message : String) (l : List Alarm) : List Alarm :=
  if allocOk then
    insertById ⟨seconds, now + seconds, message.take 63, id, groupId⟩ l
  else l

/-- The list insertion performed by `alarm_insert`: walk the list and place
the alarm before the first entry whose `time` is `≥` the new alarm's `time`
(appending at the end if none is). -/
def insertByTime (a : Alarm) : List Alarm → List Alarm
  | [] => [a]
  | b :: rest => if b.time ≥ a.time then a :: b :: rest else b :: insertByTime a rest

/-- `alarm_insert(alarm)` acting on the pair (alarm list, `current_alarm`):
time-ordered insertion followed by the wake step — if `current_alarm == 0`
(alarm thread idle) or the new alarm comes before the awaited one,
`current_alarm` is set to the new alarm's time and the condition variable is
signalled (`pthread_cond_signal`, a single wake). -/
def alarm_insert (a : Alarm) (l : List Alarm) (cur : Int) :
    (List Alarm × Int) × Wake :=
  let l' := insertByTime a l
  if cur = 0 ∨ a.time < cur then ((l', a.time), Wake.signalOne)
  else ((l', cur), Wake.noWake)

/-- The parsed command forms recognised by `main`'s `sscanf` dispatch. -/
inductive Request
  | startAlarm (id groupId seconds : Int) (message : String)
  | changeAlarm (id groupId seconds : Int) (message : String)
  | cancelAlarm (id : Int)
  | suspendAlarm (id : Int)
  | reactivateAlarm (id : Int)
  | viewAlarms
  | invalidLine
deriving DecidableEq, Repr

/-- The console acknowledgement each branch of `main` prints. -/
inductive Ack
  | invalidRequest
  | startAck
  | changeAck
  | cancelAck
  | suspendAck
  | reactivateAck
  | viewAck
deriving DecidableEq, Repr

/-- The mutable globals of the program: `alarm_list`, `current_alarm` and the
`active_group_threads` flag array (modelled as a total map on group ids; the
flag array itself has only `MAX_GROUPS` cells, see the bounds claims). -/
structure CoreState where
  alarm_list : List Alarm
  current_alarm : Int
  active_group_threads : Int → Bool

/-- The initial global state (`alarm_list = NULL`, `current_alarm = 0`,
all `active_group_threads` cells zero). -/
def coreInit : CoreState := ⟨[], 0, fun _ => false⟩

/-- One iteration of `main`'s command loop on a parsed request.  The
`Start_Alarm` branch rejects negative `alarm_id`/`group_id`/`time` fields,
otherwise calls `insert_alarm` and then `pthread_cond_broadcast`.  The
`Change_Alarm`, `Cancel_Alarm`, `Suspend_Alarm` and `Reactivate_Alarm`
branches validate their numeric fields and print an acknowledgement but
perform no mutation; `View_Alarms` only reads. -/
def processRequest (now : Int) (allocOk : Bool) (r : Request) (s : CoreState) :
    CoreState × Wake × Ack :=
  match r with
  | .startAlarm id gid sec msg =>
      if id < 0 ∨ gid < 0 ∨ sec < 0 then (s, Wake.noWake, Ack.invalidRequest)
      else ({ s with alarm_list := insert_alarm now allocOk id gid sec msg s.alarm_list },
            Wake.broadcastAll, Ack.startAck)
  | .changeAlarm id gid sec _ =>
      if id < 0 ∨ gid < 0 ∨ sec < 0 then (s, Wake.noWake, Ack.invalidRequest)
      else (s, Wake.noWake, Ack.changeAck)
  | .cancelAlarm id =>
      if id < 0 then (s, Wake.noWake, Ack.invalidRequest)
      else (s, Wake.noWake, Ack.cancelAck)
  | .suspendAlarm id =>
      if id < 0 then (s, Wake.noWake, Ack.invalidRequest)
      else (s, Wake.noWake, Ack.suspendAck)
  | .reactivateAlarm id =>
      if id < 0 then (s, Wake.noWake, Ack.invalidRequest)
      else (s, Wake.noWake, Ack.reactivateAck)
  | .viewAlarms => (s, Wake.noWake, Ack.viewAck)
  | .invalidLine => (s, Wake.noWake, Ack.invalidRequest)

/-- Process a whole sequence of parsed requests. -/
def processAll (now : Int) (allocOk : Bool) (rs : List Request) (s : CoreState) :
    CoreState :=
  rs.foldl (fun s r => (processRequest now allocOk r s).1) s

/-- What a display thread's loop body does after the scan: the body of
`display_alarm_thread` is `while (1) { ... sleep(1); }` with no `break` and
no cancellation check, so control always continues with the next iteration. -/
inductive WorkerAction
  | keepRunning
  | exitThread
deriving DecidableEq, Repr

/-- The scan of `display_alarm_thread`'s loop body over the alarm list: every
alarm with matching `groupId` and `time(NULL) >= current->time` is printed
(collected in the second component, in list order) and its `time` is advanced
to `time(NULL) + current->seconds`; every other alarm is left untouched. -/
def displayPass (g now : Int) : List Alarm → List Alarm × List Alarm
  | [] => ([], [])
  | a :: rest =>
      let p := displayPass g now rest
      if a.groupId = g ∧ now ≥ a.time then
        ({ a with time := now + a.seconds } :: p.1, a :: p.2)
      else (a :: p.1, p.2)

/-- One full iteration of `display_alarm_thread`'s `while (1)` body for group
`g` (one mutex-protected scan): the updated list, the alarms reported, and
the control outcome — always `keepRunning`, since the loop body contains no
exit path. -/
def display_alarm_thread_step (g now : Int) (l : List Alarm) :
    List Alarm × List Alarm × WorkerAction :=
  ((displayPass g now l).1, (displayPass g now l).2, WorkerAction.keepRunning)

/-- One post-wakeup pass of `group_display_creation_thread` over the alarm
list.  `ok g` models the success of the `malloc` + `pthread_create` pair for
a spawn attempt for group `g` (on either failure the source prints an error,
unlocks, and calls `exit(1)`; this is the `none` result).  A successful pass
returns the updated `active_group_threads` map together with the groups for
which a new display thread was created, in traversal order. -/
def creationPass (ok : Int → Bool) :
    List Alarm → (Int → Bool) → Option ((Int → Bool) × List Int)
  | [], table => some (table, [])
  | a :: rest, table =>
      if table a.groupId = true then creationPass ok rest table
      else if ok a.groupId = true then
        match creationPass ok rest (fun g => if g = a.groupId then true else table g) with
        | some (t, sp) => some (t, a.groupId :: sp)
        | none => none
      else none

/-- Whether some alarm of group `g` is on the list (the `groups_to_remove`
marking phase of `group_display_removal_thread`). -/
def groupsPresent (l : List Alarm) (g : Int) : Bool :=
  l.any (fun a => a.groupId == g)

/-- One post-wakeup pass of `group_display_removal_thread`: for every
`group_id` in `[0, MAX_GROUPS)` whose `active_group_threads` cell is set but
which has no alarm on the list, the cell is cleared and a removal message is
printed (second component, in ascending group order).  No other action is
taken: in particular no signal of any kind is delivered to the display
thread itself. -/
def removalPass (l : List Alarm) (table : Int → Bool) :
    (Int → Bool) × List Int :=
  (fun g =>
     if 0 ≤ g ∧ g < MAX_GROUPS ∧ table g = true ∧ groupsPresent l g = false then false
     else table g,
   ((List.range 256).map Int.ofNat).filter
     (fun g => table g && !(groupsPresent l g)))

/-- Control point of `alarm_thread`: at the top of its outer `while (1)` loop,
or inside the timed-wait loop holding the alarm it popped. -/
inductive DState
  | loopTop
  | waiting (a : Alarm)
deriving DecidableEq, Repr

/-- A configuration of the alarm thread together with the shared state it
acts on: the alarm list, `current_alarm`, the thread's control point, the
current clock, and the alarms it has fired (printed and freed), in order. -/
structure DConfig where
  list : List Alarm
  cur : Int
  dst : DState
  now : Int
  fired : List Alarm
deriving DecidableEq, Repr

/-- Small-step semantics of `alarm_thread` (plus the passage of time).
Each step is one mutex-protected stretch of the source:

* `tick` — the clock advances.
* `popWait` — at the loop top with a non-empty list, pop the head; its time
  is still in the future, so set `current_alarm` to it and enter the timed
  wait (the source's `current_alarm = 0` at the loop top is immediately
  overwritten under the same mutex hold).
* `popFire` — at the loop top, pop the head; its time has already arrived
  (`alarm->time <= now`), so it is expired: print and free it.
* `timeoutFire` — the timed wait returns `ETIMEDOUT` with the wait-loop
  guard `current_alarm == alarm->time` still satisfied: `expired = 1`,
  print and free the alarm.
* `preemptRequeue` — the guard `current_alarm == alarm->time` fails (an
  earlier alarm was inserted and signalled), so the wakeup is not expiry:
  the held alarm is re-inserted with `alarm_insert` and the loop restarts. -/
inductive DStep : DConfig → DConfig → Prop
  | tick (c : DConfig) :
      DStep c ⟨c.list, c.cur, c.dst, c.now + 1, c.fired⟩
  | popWait (c : DConfig) (a : Alarm) (rest : List Alarm)
      (hd : c.dst = DState.loopTop) (hl : c.list = a :: rest)
      (ht : a.time > c.now) :
      DStep c ⟨rest, a.time, DState.waiting a, c.now, c.fired⟩
  | popFire (c : DConfig) (a : Alarm) (rest : List Alarm)
      (hd : c.dst = DState.loopTop) (hl : c.list = a :: rest)
      (ht : ¬ a.time > c.now) :
      DStep c ⟨rest, 0, DState.loopTop, c.now, c.fired ++ [a]⟩
  | timeoutFire (c : DConfig) (a : Alarm)
      (hd : c.dst = DState.waiting a) (ht : c.now ≥ a.time)
      (hc : c.cur = a.time) :
      DStep c ⟨c.list, c.cur, DState.loopTop, c.now, c.fired ++ [a]⟩
  | preemptRequeue (c : DConfig) (a : Alarm)
      (hd : c.dst = DState.waiting a) (hc : c.cur ≠ a.time) :
      DStep c ⟨((alarm_insert a c.list c.cur).1).1,
               ((alarm_insert a c.list c.cur).1).2,
               DState.loopTop, c.now, c.fired⟩

/-- Ascending-`time` ordering of the alarm list (the registry ordering the
specification requires). -/
def sortedByTime (l : List Alarm) : Prop :=
  List.Chain' (fun x y => x.time ≤ y.time) l

/-- Ascending-`id` ordering of the alarm list (the ordering `insert_alarm`
actually maintains). -/
def sortedById (l : List Alarm) : Prop :=
  List.Chain' (fun x y => x.id ≤ y.id) l

/-- Executable check for `sortedByTime`. -/
def sortedByTimeB : List Alarm → Bool
  | [] => true
  | [_] => true
  | a :: b :: rest => decide (a.time ≤ b.time) && sortedByTimeB (b :: rest)

/-- Executable check for `sortedById`. -/
def sortedByIdB : List Alarm → Bool
  | [] => true
  | [_] => true
  | a :: b :: rest => decide (a.id ≤ b.id) && sortedByIdB (b :: rest)

theorem sortedByTimeB_iff : ∀ l : List Alarm, sortedByTimeB l = true ↔ sortedByTime l
  | [] => by simp [sortedByTimeB, sortedByTime]
  | [a] => by simp [sortedByTimeB, sortedByTime]
  | a :: b :: rest => by
      rw [sortedByTimeB, Bool.and_eq_true, decide_eq_true_eq,
        sortedByTimeB_iff (b :: rest)]
      simp [sortedByTime, List.chain'_cons]

theorem sortedByIdB_iff : ∀ l : List Alarm, sortedByIdB l = true ↔ sortedById l
  | [] => by simp [sortedByIdB, sortedById]
  | [a] => by simp [sortedByIdB, sortedById]
  | a :: b :: rest => by
      rw [sortedByIdB, Bool.and_eq_true, decide_eq_true_eq,
        sortedByIdB_iff (b :: rest)]
      simp [sortedById, List.chain'_cons]

instance (l : List Alarm) : Decidable (sortedByTime l) :=
  decidable_of_iff (sortedByTimeB l = true) (sortedByTimeB_iff l)

instance (l : List Alarm) : Decidable (sortedById l) :=
  decidable_of_iff (sortedByIdB l = true) (sortedByIdB_iff l)

/-! ### Helper lemmas about the two insertion routines -/

theorem mem_insertAfterById {x a : Alarm} :
    ∀ {l : List Alarm}, x ∈ insertAfterById a l ↔ x = a ∨ x ∈ l
  | [] => by simp [insertAfterById]
  | c :: rest => by
      rw [insertAfterById]
      split
      · simp only [List.mem_cons, mem_insertAfterById (l := rest)]
        tauto
      · simp only [List.mem_cons]

theorem mem_insertById {x a : Alarm} {l : List Alarm} :
    x ∈ insertById a l ↔ x = a ∨ x ∈ l := by
  cases l with
  | nil => simp [insertById]
  | cons b rest =>
      rw [insertById]
      split
      · simp only [List.mem_cons]
      · simp only [List.mem_cons, mem_insertAfterById]
        tauto

theorem mem_insertByTime {x a : Alarm} :
    ∀ {l : List Alarm}, x ∈ insertByTime a l ↔ x = a ∨ x ∈ l
  | [] => by simp [insertByTime]
  | b :: rest => by
      rw [insertByTime]
      split
      · simp only [List.mem_cons]
      · simp only [List.mem_cons, mem_insertByTime (l := rest)]
        tauto

theorem sortedById_insertAfterById (a : Alarm) :
    ∀ (b : Alarm) (l : List Alarm), b.id ≤ a.id → sortedById (b :: l) →
      sortedById (b :: insertAfterById a l)
  | b, [], hba, _ => by
      simp only [insertAfterById, sortedById, List.chain'_cons, List.chain'_singleton,
        and_true]
      exact hba
  | b, c :: rest, hba, h => by
      rw [sortedById, List.chain'_cons] at h
      rw [insertAfterById]
      split
      · next hc =>
          rw [sortedById, List.chain'_cons]
          exact ⟨h.1, sortedById_insertAfterById a c rest (le_of_lt hc) h.2⟩
      · next hc =>
          rw [sortedById, List.chain'_cons, List.chain'_cons]
          exact ⟨hba, le_of_not_lt hc, h.2⟩

theorem sortedById_insertById (a : Alarm) (l : List Alarm) (h : sortedById l) :
    sortedById (insertById a l) := by
  cases l with
  | nil => simp [insertById, sortedById]
  | cons b rest =>
      rw [insertById]
      split
      · next hb =>
          rw [sortedById, List.chain'_cons]
          exact ⟨le_of_lt hb, h⟩
      · next hb =>
          exact sortedById_insertAfterById a b rest (le_of_not_lt (fun hh => hb hh)) h

theorem sortedByTime_insertByTime (a : Alarm) :
    ∀ (l : List Alarm), sortedByTime l → sortedByTime (insertByTime a l)
  | [], _ => by simp [insertByTime, sortedByTime]
  | b :: rest, h => by
      rw [insertByTime]
      split
      · next hb =>
          rw [sortedByTime, List.chain'_cons]
          exact ⟨hb, h⟩
      · next hb =>
          cases rest with
          | nil =>
              simp only [insertByTime, sortedByTime, List.chain'_cons,
                List.chain'_singleton, and_true]
              exact le_of_not_le (fun hh => hb hh)
          | cons c rest' =>
              rw [sortedByTime, List.chain'_cons] at h
              have ih := sortedByTime_insertByTime a (c :: rest') h.2
              rw [insertByTime] at ih ⊢
              split
              · next hc =>
                  rw [if_pos hc] at ih
                  rw [sortedByTime, List.chain'_cons]
                  exact ⟨le_of_not_le (fun hh => hb hh), ih⟩
              · next hc =>
                  rw [if_neg hc] at ih
                  rw [sortedByTime, List.chain'_cons]
                  exact ⟨h.1, ih⟩

/-! ### Helper lemmas about the supervisor passes -/

theorem groupsPresent_of_mem {l : List Alarm} {x : Alarm} (hx : x ∈ l) :
    groupsPresent l x.groupId = true := by
  unfold groupsPresent
  rw [List.any_eq_true]
  exact ⟨x, hx, by simp⟩

theorem groupsPresent_insert_alarm (now : Int) (ok : Bool) (id gid sec : Int)
    (msg : String) (l : List Alarm) (g : Int) (h : groupsPresent l g = true) :
    groupsPresent (insert_alarm now ok id gid sec msg l) g = true := by
  unfold insert_alarm
  split
  · unfold groupsPresent at h ⊢
    rw [List.any_eq_true] at h ⊢
    obtain ⟨x, hx, hgx⟩ := h
    exact ⟨x, mem_insertById.mpr (Or.inr hx), hgx⟩
  · exact h

theorem creationPass_spec (ok : Int → Bool) :
    ∀ (l : List Alarm) (table t : Int → Bool) (sp : List Int),
      creationPass ok l table = some (t, sp) →
      (∀ g, t g = true ↔ (table g = true ∨ g ∈ sp))
      ∧ (∀ g ∈ sp, table g = false ∧ ∃ a ∈ l, a.groupId = g)
      ∧ (∀ a ∈ l, t a.groupId = true)
      ∧ sp.Nodup
  | [], table, t, sp, h => by
      rw [creationPass] at h
      obtain ⟨rfl, rfl⟩ : table = t ∧ [] = sp := by
        simpa [Prod.ext_iff] using h
      simp
  | a :: rest, table, t, sp, h => by
      rw [creationPass] at h
      by_cases h1 : table a.groupId = true
      · rw [if_pos h1] at h
        obtain ⟨hiff, hsp, hall, hnd⟩ := creationPass_spec ok rest table t sp h
        refine ⟨hiff, ?_, ?_, hnd⟩
        · intro g hg
          obtain ⟨hf, x, hx, hgx⟩ := hsp g hg
          exact ⟨hf, x, List.mem_cons_of_mem _ hx, hgx⟩
        · intro x hx
          rcases List.mem_cons.mp hx with rfl | hx'
          · exact (hiff x.groupId).mpr (Or.inl h1)
          · exact hall x hx'
      · rw [if_neg h1] at h
        by_cases h2 : ok a.groupId = true
        · rw [if_pos h2] at h
          rcases hrec : creationPass ok rest (fun g => if g = a.groupId then true else table g)
            with _ | ⟨t', sp'⟩
          · rw [hrec] at h
            exact absurd h (by simp)
          · rw [hrec] at h
            have hinj : t' = t ∧ a.groupId :: sp' = sp := by
              simpa [Prod.ext_iff] using h
            rw [← hinj.1, ← hinj.2]
            obtain ⟨hiff, hsp, hall, hnd⟩ :=
              creationPass_spec ok rest (fun g => if g = a.groupId then true else table g)
                t' sp' hrec
            have htab : ∀ g, ((fun g => if g = a.groupId then true else table g) g = true)
                ↔ (g = a.groupId ∨ table g = true) := by
              intro g
              by_cases hg : g = a.groupId <;> simp [hg]
            refine ⟨?_, ?_, ?_, ?_⟩
            · intro g
              rw [hiff g, htab g, List.mem_cons]
              tauto
            · intro g hg
              rcases List.mem_cons.mp hg with rfl | hg'
              · exact ⟨Bool.not_eq_true _ ▸ h1, a, List.mem_cons_self a rest, rfl⟩
              · obtain ⟨hf, x, hx, hgx⟩ := hsp g hg'
                have hgne : g ≠ a.groupId := by
                  intro hcontra
                  rw [if_pos hcontra] at hf
                  cases hf
                rw [if_neg hgne] at hf
                exact ⟨hf, x, List.mem_cons_of_mem _ hx, hgx⟩
            · intro x hx
              rcases List.mem_cons.mp hx with rfl | hx'
              · exact (hiff x.groupId).mpr (Or.inl (by simp))
              · exact hall x hx'
            · rw [List.nodup_cons]
              refine ⟨?_, hnd⟩
              intro hmem
              have := (hsp a.groupId hmem).1
              rw [if_pos rfl] at this
              cases this
        · rw [if_neg h2] at h
          exact absurd h (by simp)

theorem creationPass_allActive (ok : Int → Bool) :
    ∀ (l : List Alarm) (table : Int → Bool),
      (∀ a ∈ l, table a.groupId = true) →
      creationPass ok l table = some (table, [])
  | [], table, _ => by rw [creationPass]
  | a :: rest, table, h => by
      rw [creationPass, if_pos (h a (List.mem_cons_self a rest))]
      exact creationPass_allActive ok rest table
        (fun x hx => h x (List.mem_cons_of_mem _ hx))

theorem creationPass_fail (ok : Int → Bool) :
    ∀ (l : List Alarm) (table : Int → Bool),
      (∃ a ∈ l, table a.groupId = false ∧ ok a.groupId = false) →
      creationPass ok l table = none
  | [], table, h => by
      obtain ⟨x, hx, _⟩ := h
      cases hx
  | a :: rest, table, h => by
      obtain ⟨x, hx, hxt, hxo⟩ := h
      rw [creationPass]
      by_cases h1 : table a.groupId = true
      · rw [if_pos h1]
        rcases List.mem_cons.mp hx with rfl | hx'
        · rw [h1] at hxt
          cases hxt
        · exact creationPass_fail ok rest table ⟨x, hx', hxt, hxo⟩
      · rw [if_neg h1]
        by_cases h2 : ok a.groupId = true
        · rw [if_pos h2]
          have hxrest : x ∈ rest := by
            rcases List.mem_cons.mp hx with rfl | hx'
            · rw [h2] at hxo
              cases hxo
            · exact hx'
          have hgne : x.groupId ≠ a.groupId := by
            intro hcontra
            rw [hcontra, h2] at hxo
            cases hxo
          have : creationPass ok rest (fun g => if g = a.groupId then true else table g)
              = none :=
            creationPass_fail ok rest _ ⟨x, hxrest, by rw [if_neg hgne]; exact hxt, hxo⟩
          rw [this]
        · rw [if_neg h2]

theorem removalPass_id (l : List Alarm) (table : Int → Bool)
    (h : ∀ g, table g = true → groupsPresent l g = true) (g : Int) :
    (removalPass l table).1 g = table g := by
  unfold removalPass
  dsimp only
  split
  · next hcond =>
      obtain ⟨_, _, htg, hpg⟩ := hcond
      rw [h g htg] at hpg
      cases hpg
  · rfl

/-! ### The supervisor system: inserts, creation passes, removal passes -/

/-- Shared state plus the display-thread population: the alarm list, the
`active_group_threads` map, and for each group the number of display threads
currently running for it (`pthread_create` in the creation pass adds one;
nothing in the program ever terminates a display thread). -/
structure SysState where
  list : List Alarm
  table : Int → Bool
  live : Int → Nat

/-- Program start: empty list, zeroed flag array, no display threads. -/
def sysInit : SysState := ⟨[], fun _ => false, fun _ => 0⟩

/-- Interleaving semantics of the three mutators of the shared state, each a
mutex-protected critical section of the source: a validated `Start_Alarm`
registration (`insert_alarm` from `main`), one post-wakeup pass of
`group_display_creation_thread` that completes without `exit(1)` (spawning
one display thread for each group in `sp`), and one post-wakeup pass of
`group_display_removal_thread`. -/
inductive SysStep : SysState → SysState → Prop
  | insert (s : SysState) (now : Int) (allocOk : Bool) (id gid sec : Int)
      (msg : String) (h : ¬(id < 0 ∨ gid < 0 ∨ sec < 0)) :
      SysStep s ⟨insert_alarm now allocOk id gid sec msg s.list, s.table, s.live⟩
  | creation (s : SysState) (ok : Int → Bool) (t : Int → Bool) (sp : List Int)
      (h : creationPass ok s.list s.table = some (t, sp)) :
      SysStep s ⟨s.list, t, fun g => s.live g + sp.count g⟩
  | removal (s : SysState) :
      SysStep s ⟨s.list, (removalPass s.list s.table).1, s.live⟩

/-- Reachability from program start. -/
def SysReach (s : SysState) : Prop := Relation.ReflTransGen SysStep sysInit s

/-- The reconciliation invariant: an active flag means the group still has an
alarm on the list, and the number of live display threads for a group is one
exactly when its flag is set. -/
def SysInv (s : SysState) : Prop :=
  ∀ g, (s.table g = true → groupsPresent s.list g = true)
    ∧ s.live g = (if s.table g = true then 1 else 0)

theorem sysInv_init : SysInv sysInit := by
  intro g
  refine ⟨fun h => ?_, by simp [sysInit]⟩
  simp [sysInit] at h

theorem sysInv_step {s s' : SysState} (h : SysStep s s') (hi : SysInv s) :
    SysInv s' := by
  cases h with
  | insert now allocOk id gid sec msg hvalid =>
      intro g
      obtain ⟨hp, hl⟩ := hi g
      exact ⟨fun ht => groupsPresent_insert_alarm now allocOk id gid sec msg s.list g (hp ht),
        hl⟩
  | creation ok t sp hcp =>
      obtain ⟨hiff, hsp, hall, hnd⟩ := creationPass_spec ok s.list s.table t sp hcp
      intro g
      constructor
      · intro ht
        rcases (hiff g).mp ht with hold | hmem
        · exact (hi g).1 hold
        · obtain ⟨_, x, hx, hgx⟩ := hsp g hmem
          exact hgx ▸ groupsPresent_of_mem hx
      · have hl := (hi g).2
        show s.live g + sp.count g = if t g = true then 1 else 0
        by_cases htg : t g = true
        · rw [if_pos htg]
          rcases (hiff g).mp htg with hold | hmem
          · have hnotin : g ∉ sp := fun hm => by
              have := (hsp g hm).1
              rw [hold] at this
              cases this
            rw [List.count_eq_zero.mpr hnotin, hl, if_pos hold]
          · have hf := (hsp g hmem).1
            rw [List.count_eq_one_of_mem hnd hmem, hl, if_neg (by rw [hf]; simp)]
        · rw [if_neg htg]
          have hold : ¬ s.table g = true := fun hh => htg ((hiff g).mpr (Or.inl hh))
          have hmem : g ∉ sp := fun hm => htg ((hiff g).mpr (Or.inr hm))
          rw [List.count_eq_zero.mpr hmem, hl, if_neg hold]
  | removal =>
      intro g
      have hpt := removalPass_id s.list s.table (fun g hg => (hi g).1 hg)
      obtain ⟨hp, hl⟩ := hi g
      refine ⟨?_, ?_⟩
      · show (removalPass s.list s.table).1 g = true → _
        rw [hpt g]
        exact hp
      · show s.live g = (if (removalPass s.list s.table).1 g = true then 1 else 0)
        rw [hpt g]
        exact hl

theorem sysInv_reach {s : SysState} (h : SysReach s) : SysInv s := by
  induction h with
  | refl => exact sysInv_init
  | tail _ hstep ih => exact sysInv_step hstep ih

/-! ### The alarm thread's preemption protocol -/

theorem alarm_insert_list (a : Alarm) (l : List Alarm) (cur : Int) :
    ((alarm_insert a l cur).1).1 = insertByTime a l := by
  unfold alarm_insert
  split <;> rfl

/-- Inductive invariant for the preemption scenario: the alarm thread was in
its timed wait for `a1` when the strictly earlier `a2` was inserted.  The six
disjuncts are the control states the system can subsequently pass through:
still waiting on `a1` (with `current_alarm` moved off `a1.time`), after the
requeue, waiting on `a2`, after firing `a2`, waiting on `a1` again, and after
firing both. -/
def DInv (a1 a2 : Alarm) (c : DConfig) : Prop :=
  (c.list = [a2] ∧ c.dst = DState.waiting a1 ∧ c.fired = [] ∧ c.cur ≠ a1.time)
  ∨ (c.list = [a2, a1] ∧ c.dst = DState.loopTop ∧ c.fired = [])
  ∨ (c.list = [a1] ∧ c.dst = DState.waiting a2 ∧ c.fired = [])
  ∨ (c.list = [a1] ∧ c.dst = DState.loopTop ∧ c.fired = [a2])
  ∨ (c.list = [] ∧ c.dst = DState.waiting a1 ∧ c.fired = [a2])
  ∨ (c.list = [] ∧ c.dst = DState.loopTop ∧ c.fired = [a2, a1])

theorem DInv_fired_prefix (a1 a2 : Alarm) (c : DConfig) (h : DInv a1 a2 c) :
    c.fired <+: [a2, a1] := by
  rcases h with ⟨_, _, h3, _⟩ | ⟨_, _, h3⟩ | ⟨_, _, h3⟩ | ⟨_, _, h3⟩ | ⟨_, _, h3⟩ | ⟨_, _, h3⟩
  · rw [h3]; exact ⟨[a2, a1], rfl⟩
  · rw [h3]; exact ⟨[a2, a1], rfl⟩
  · rw [h3]; exact ⟨[a2, a1], rfl⟩
  · rw [h3]; exact ⟨[a1], rfl⟩
  · rw [h3]; exact ⟨[a1], rfl⟩
  · rw [h3]

theorem DInv_step (a1 a2 : Alarm) (hlt : a2.time < a1.time) {c c' : DConfig}
    (hstep : DStep c c') (hinv : DInv a1 a2 c) : DInv a1 a2 c' := by
  have hins21 : insertByTime a1 [a2] = [a2, a1] := by
    rw [insertByTime, if_neg (not_le.mpr hlt), insertByTime]
  have hins12 : insertByTime a2 [a1] = [a2, a1] := by
    rw [insertByTime, if_pos (le_of_lt hlt)]
  cases hstep with
  | tick =>
      simpa [DInv] using hinv
  | popWait a rest hd hl ht =>
      rcases hinv with ⟨h1, h2, h3, h4⟩ | ⟨h1, h2, h3⟩ | ⟨h1, h2, h3⟩ | ⟨h1, h2, h3⟩
        | ⟨h1, h2, h3⟩ | ⟨h1, h2, h3⟩
      · rw [h2] at hd; simp at hd
      · obtain ⟨ha, hrest⟩ : a = a2 ∧ rest = [a1] := by
          have := hl.symm.trans h1
          simpa using this
        exact Or.inr (Or.inr (Or.inl ⟨hrest, by rw [ha], h3⟩))
      · rw [h2] at hd; simp at hd
      · obtain ⟨ha, hrest⟩ : a = a1 ∧ rest = [] := by
          have := hl.symm.trans h1
          simpa using this
        exact Or.inr (Or.inr (Or.inr (Or.inr (Or.inl ⟨hrest, by rw [ha], h3⟩))))
      · rw [h2] at hd; simp at hd
      · rw [h1] at hl; simp at hl
  | popFire a rest hd hl ht =>
      rcases hinv with ⟨h1, h2, h3, h4⟩ | ⟨h1, h2, h3⟩ | ⟨h1, h2, h3⟩ | ⟨h1, h2, h3⟩
        | ⟨h1, h2, h3⟩ | ⟨h1, h2, h3⟩
      · rw [h2] at hd; simp at hd
      · obtain ⟨ha, hrest⟩ : a = a2 ∧ rest = [a1] := by
          have := hl.symm.trans h1
          simpa using this
        refine Or.inr (Or.inr (Or.inr (Or.inl ⟨hrest, rfl, ?_⟩)))
        show c.fired ++ [a] = [a2]
        simp [h3, ha]
      · rw [h2] at hd; simp at hd
      · obtain ⟨ha, hrest⟩ : a = a1 ∧ rest = [] := by
          have := hl.symm.trans h1
          simpa using this
        refine Or.inr (Or.inr (Or.inr (Or.inr (Or.inr ⟨hrest, rfl, ?_⟩))))
        show c.fired ++ [a] = [a2, a1]
        simp [h3, ha]
      · rw [h2] at hd; simp at hd
      · rw [h1] at hl; simp at hl
  | timeoutFire a hd ht hc =>
      rcases hinv with ⟨h1, h2, h3, h4⟩ | ⟨h1, h2, h3⟩ | ⟨h1, h2, h3⟩ | ⟨h1, h2, h3⟩
        | ⟨h1, h2, h3⟩ | ⟨h1, h2, h3⟩
      · have ha : a = a1 := by
          have := hd.symm.trans h2
          simpa using this
        rw [ha] at hc
        exact absurd hc h4
      · rw [h2] at hd; simp at hd
      · have ha : a = a2 := by
          have := hd.symm.trans h2
          simpa using this
        refine Or.inr (Or.inr (Or.inr (Or.inl ⟨h1, rfl, ?_⟩)))
        show c.fired ++ [a] = [a2]
        simp [h3, ha]
      · rw [h2] at hd; simp at hd
      · have ha : a = a1 := by
          have := hd.symm.trans h2
          simpa using this
        refine Or.inr (Or.inr (Or.inr (Or.inr (Or.inr ⟨h1, rfl, ?_⟩))))
        show c.fired ++ [a] = [a2, a1]
        simp [h3, ha]
      · rw [h2] at hd; simp at hd
  | preemptRequeue a hd hc =>
      rcases hinv with ⟨h1, h2, h3, h4⟩ | ⟨h1, h2, h3⟩ | ⟨h1, h2, h3⟩ | ⟨h1, h2, h3⟩
        | ⟨h1, h2, h3⟩ | ⟨h1, h2, h3⟩
      · have ha : a = a1 := by
          have := hd.symm.trans h2
          simpa using this
        refine Or.inr (Or.inl ⟨?_, rfl, h3⟩)
        show ((alarm_insert a c.list c.cur).1).1 = [a2, a1]
        rw [alarm_insert_list, h1, ha, hins21]
      · rw [h2] at hd; simp at hd
      · have ha : a = a2 := by
          have := hd.symm.trans h2
          simpa using this
        refine Or.inr (Or.inl ⟨?_, rfl, h3⟩)
        show ((alarm_insert a c.list c.cur).1).1 = [a2, a1]
        rw [alarm_insert_list, h1, ha, hins12]
      · rw [h2] at hd; simp at hd
      · have ha : a = a1 := by
          have := hd.symm.trans h2
          simpa using this
        refine Or.inr (Or.inr (Or.inr (Or.inl ⟨?_, rfl, h3⟩)))
        show ((alarm_insert a c.list c.cur).1).1 = [a1]
        rw [alarm_insert_list, h1, ha, insertByTime]
      · rw [h2] at hd; simp at hd

/-! ### Non-negativity of group ids reaching the list -/

theorem processRequest_groupId_nonneg (now : Int) (allocOk : Bool) (r : Request)
    (s : CoreState) (hs : ∀ a ∈ s.alarm_list, 0 ≤ a.groupId) :
    ∀ a ∈ ((processRequest now allocOk r s).1).alarm_list, 0 ≤ a.groupId := by
  cases r with
  | startAlarm id gid sec msg =>
      rw [processRequest]
      split
      · exact hs
      · next hneg =>
          intro a ha
          dsimp only at ha
          unfold insert_alarm at ha
          split at ha
          · rcases mem_insertById.mp ha with rfl | ha'
            · show (0 : Int) ≤ gid
              push_neg at hneg
              exact hneg.2.1
            · exact hs a ha'
          · exact hs a ha
  | changeAlarm id gid sec msg =>
      rw [processRequest]; split <;> exact hs
  | cancelAlarm id => rw [processRequest]; split <;> exact hs
  | suspendAlarm id => rw [processRequest]; split <;> exact hs
  | reactivateAlarm id => rw [processRequest]; split <;> exact hs
  | viewAlarms => exact hs
  | invalidLine => exact hs

theorem processAll_groupId_nonneg (now : Int) (allocOk : Bool) :
    ∀ (rs : List Request) (s : CoreState),
      (∀ a ∈ s.alarm_list, 0 ≤ a.groupId) →
      ∀ a ∈ (processAll now allocOk rs s).alarm_list, 0 ≤ a.groupId
  | [], _, hs => hs
  | r :: rs, s, hs =>
      processAll_groupId_nonneg now allocOk rs ((processRequest now allocOk r s).1)
        (processRequest_groupId_nonneg now allocOk r s hs)

/-! ### Claim theorems -/

/-- C1, counterexample: the claim that every insert path keeps the registry
sorted ascending by due time fails on the wired registration path.  Two
`insert_alarm` calls (id 1 with a 10-second period, then id 2 with a
5-second period, both at clock 100) leave the list ordered `[110, 105]` by
due time, because `insert_alarm` orders by id, not by time. -/
theorem C1_counterexample :
    ¬ sortedByTime
      (insert_alarm 100 true 2 0 5 "second" (insert_alarm 100 true 1 0 10 "first" [])) := by
  decide

/-- C1, amended: `insert_alarm` (the wired registration path) maintains
ascending `id` order, while `alarm_insert` (the requeue path) maintains
ascending `time` order; each path preserves its own ordering invariant, and
they are different orders. -/
theorem C1_ordering :
    (∀ (now : Int) (allocOk : Bool) (id gid sec : Int) (msg : String) (l : List Alarm),
      sortedById l → sortedById (insert_alarm now allocOk id gid sec msg l))
    ∧ (∀ (a : Alarm) (l : List Alarm) (cur : Int),
      sortedByTime l → sortedByTime (((alarm_insert a l cur).1).1)) := by
  constructor
  · intro now allocOk id gid sec msg l h
    unfold insert_alarm
    split
    · exact sortedById_insertById _ l h
    · exact h
  · intro a l cur h
    rw [alarm_insert_list]
    exact sortedByTime_insertByTime a l h

/-- Witness for the amended C1 theorem at concrete inputs. -/
theorem C1_ordering_witness :
    sortedById (insert_alarm 100 true 5 2 10 "m" [])
    ∧ sortedByTime (((alarm_insert ⟨3, 103, "n", 1, 0⟩ [] 0).1).1) :=
  ⟨C1_ordering.1 100 true 5 2 10 "m" [] (by decide),
   C1_ordering.2 ⟨3, 103, "n", 1, 0⟩ [] 0 (by decide)⟩

/-- C2, counterexample: a `Start_Alarm` request with `groupId = 256` (equal
to `MAX_GROUPS`) is not rejected: it is acknowledged as a started alarm and
the alarm list grows from empty to one entry, so the registry does not stay
unchanged. -/
theorem C2_counterexample :
    (processRequest 100 true (Request.startAlarm 1 256 5 "m") coreInit).2.2 = Ack.startAck
    ∧ ((processRequest 100 true (Request.startAlarm 1 256 5 "m") coreInit).1).alarm_list.length
        ≠ coreInit.alarm_list.length := by
  decide

/-- C2, amended: the command layer's validation for `Start_Alarm` rejects
exactly the requests with a negative id, group id, or period (leaving the
state unchanged, with the invalid-request acknowledgement); it imposes no
upper bound on `groupId`, so any request with non-negative fields — in
particular `groupId = 256` — has its alarm inserted into the list. -/
theorem C2_validation :
    (∀ (now : Int) (allocOk : Bool) (id gid sec : Int) (msg : String) (s : CoreState),
      (id < 0 ∨ gid < 0 ∨ sec < 0) →
      (processRequest now allocOk (Request.startAlarm id gid sec msg) s).1 = s
      ∧ (processRequest now allocOk (Request.startAlarm id gid sec msg) s).2.2
          = Ack.invalidRequest)
    ∧ (∀ (now id gid sec : Int) (msg : String) (s : CoreState),
      ¬(id < 0 ∨ gid < 0 ∨ sec < 0) →
      (⟨sec, now + sec, msg.take 63, id, gid⟩ : Alarm)
        ∈ ((processRequest now true (Request.startAlarm id gid sec msg) s).1).alarm_list) := by
  constructor
  · intro now allocOk id gid sec msg s h
    rw [processRequest, if_pos h]
    exact ⟨rfl, rfl⟩
  · intro now id gid sec msg s h
    rw [processRequest, if_neg h]
    show (⟨sec, now + sec, msg.take 63, id, gid⟩ : Alarm)
      ∈ insert_alarm now true id gid sec msg s.alarm_list
    unfold insert_alarm
    rw [if_pos rfl]
    exact mem_insertById.mpr (Or.inl rfl)

/-- Witness for the amended C2 theorem at concrete inputs: a negative-id
request is rejected without a state change, and a `groupId = 256` request
lands in the list. -/
theorem C2_validation_witness :
    (processRequest 100 true (Request.startAlarm (-1) 2 5 "m") coreInit).1 = coreInit
    ∧ (⟨5, (100 : Int) + 5, ("m" : String).take 63, 1, 256⟩ : Alarm)
        ∈ ((processRequest 100 true (Request.startAlarm 1 256 5 "m") coreInit).1).alarm_list :=
  ⟨(C2_validation.1 100 true (-1) 2 5 "m" coreInit (by decide)).1,
   C2_validation.2 100 1 256 5 "m" coreInit (by decide)⟩

/-- C6, counterexample: the wired registration path does not maintain the
awaited deadline, and the requeue path does not broadcast.  With the alarm
thread awaiting deadline 100, a valid `Start_Alarm` whose alarm is due at 50
(earlier than 100) leaves `current_alarm` at 100, because `insert_alarm`
never touches it; and `alarm_insert`, which does update `current_alarm`,
wakes waiters with `pthread_cond_signal` (a single wake), not a broadcast. -/
theorem C6_counterexample :
    (processRequest 0 true (Request.startAlarm 1 0 50 "m")
        ⟨[], 100, fun _ => false⟩).1.current_alarm = 100
    ∧ ((0 : Int) + 50 < 100)
    ∧ (alarm_insert ⟨50, 50, "m", 1, 0⟩ [] 100).2 = Wake.signalOne
    ∧ Wake.signalOne ≠ Wake.broadcastAll := by
  decide

/-- C6, amended: a valid `Start_Alarm` leaves `current_alarm` unchanged and
is followed by `main`'s `pthread_cond_broadcast`; the requeue path
`alarm_insert` sets `current_alarm` to the new alarm's time exactly when the
alarm thread is idle (`current_alarm == 0`) or the new alarm is earlier, and
then performs a single `pthread_cond_signal` (otherwise it performs no wake
at all and leaves `current_alarm` unchanged). -/
theorem C6_wake :
    (∀ (now id gid sec : Int) (msg : String) (s : CoreState),
      ¬(id < 0 ∨ gid < 0 ∨ sec < 0) →
      (processRequest now true (Request.startAlarm id gid sec msg) s).1.current_alarm
          = s.current_alarm
      ∧ (processRequest now true (Request.startAlarm id gid sec msg) s).2.1
          = Wake.broadcastAll)
    ∧ (∀ (a : Alarm) (l : List Alarm) (cur : Int),
      (cur = 0 ∨ a.time < cur) →
      ((alarm_insert a l cur).1).2 = a.time ∧ (alarm_insert a l cur).2 = Wake.signalOne)
    ∧ (∀ (a : Alarm) (l : List Alarm) (cur : Int),
      ¬(cur = 0 ∨ a.time < cur) →
      ((alarm_insert a l cur).1).2 = cur ∧ (alarm_insert a l cur).2 = Wake.noWake) := by
  refine ⟨?_, ?_, ?_⟩
  · intro now id gid sec msg s h
    rw [processRequest, if_neg h]
    exact ⟨rfl, rfl⟩
  · intro a l cur h
    unfold alarm_insert
    rw [if_pos h]
    exact ⟨rfl, rfl⟩
  · intro a l cur h
    unfold alarm_insert
    rw [if_neg h]
    exact ⟨rfl, rfl⟩

/-- Witness for the amended C6 theorem at concrete inputs. -/
theorem C6_wake_witness :
    ((processRequest 0 true (Request.startAlarm 1 0 50 "m")
        ⟨[], 100, fun _ => false⟩).1.current_alarm = (100 : Int))
    ∧ (((alarm_insert ⟨50, 50, "m", 1, 0⟩ [] 100).1).2 = (50 : Int))
    ∧ (((alarm_insert ⟨50, 50, "m", 1, 0⟩ [] 20).1).2 = (20 : Int)) :=
  ⟨(C6_wake.1 0 1 0 50 "m" ⟨[], 100, fun _ => false⟩ (by decide)).1,
   (C6_wake.2.1 ⟨50, 50, "m", 1, 0⟩ [] 100 (by decide)).1,
   (C6_wake.2.2 ⟨50, 50, "m", 1, 0⟩ [] 20 (by decide)).1⟩

/-- C9: processing a syntactically valid `Change_Alarm`, `Cancel_Alarm`,
`Suspend_Alarm` or `Reactivate_Alarm` request leaves the whole core state —
the alarm list, `current_alarm`, and the `active_group_threads` table —
exactly as it was: these branches of `main` only print an acknowledgement. -/
theorem C9_frame :
    ∀ (now : Int) (allocOk : Bool) (id gid sec : Int) (msg : String) (s : CoreState),
      (processRequest now allocOk (Request.changeAlarm id gid sec msg) s).1 = s
      ∧ (processRequest now allocOk (Request.cancelAlarm id) s).1 = s
      ∧ (processRequest now allocOk (Request.suspendAlarm id) s).1 = s
      ∧ (processRequest now allocOk (Request.reactivateAlarm id) s).1 = s := by
  intro now allocOk id gid sec msg s
  refine ⟨?_, ?_, ?_, ?_⟩ <;> (rw [processRequest]; split <;> rfl)

/-- C3, counterexample: the removal pass observing group 7 active with no
alarm on the list merely clears the flag and logs the removal — its result
carries no termination signal of any kind — while the display thread's loop
body always continues (it has no exit path), so the worker is not stopped:
the flag-only removal is exactly what the code does. -/
theorem C3_counterexample :
    (removalPass [] (fun g => decide (g = 7))).1 7 = false
    ∧ (removalPass [] (fun g => decide (g = 7))).2 = [7]
    ∧ (display_alarm_thread_step 7 100 []).2.2 = WorkerAction.keepRunning
    ∧ WorkerAction.keepRunning ≠ WorkerAction.exitThread := by
  decide

/-- C3, amended: when the removal loop observes an in-range group whose
`active_group_threads` cell is set but which has no alarm on the list, it
only clears the cell (and prints a removal message); no termination signal
exists and the display thread's loop never exits, so the worker keeps
running after its table entry is cleared. -/
theorem C3_removal :
    ∀ (l : List Alarm) (table : Int → Bool) (g : Int),
      0 ≤ g → g < MAX_GROUPS → table g = true → groupsPresent l g = false →
      (removalPass l table).1 g = false
      ∧ (∀ (now : Int) (l' : List Alarm),
          (display_alarm_thread_step g now l').2.2 = WorkerAction.keepRunning) := by
  intro l table g h0 h1 h2 h3
  constructor
  · unfold removalPass
    dsimp only
    rw [if_pos ⟨h0, h1, h2, h3⟩]
  · intro _ _
    rfl

/-- Witness for the amended C3 theorem at a concrete input. -/
theorem C3_removal_witness :
    (removalPass [] (fun g => decide (g = 9))).1 9 = false
    ∧ (display_alarm_thread_step 9 100 []).2.2 = WorkerAction.keepRunning :=
  ⟨(C3_removal [] (fun g => decide (g = 9)) 9 (by decide) (by decide) (by decide)
      (by decide)).1,
   (C3_removal [] (fun g => decide (g = 9)) 9 (by decide) (by decide) (by decide)
      (by decide)).2 100 []⟩

/-- C7, counterexample: a creation pass that hits an allocation or
thread-spawn failure for a group with no active worker does not leave the
process running — it reaches the `exit(1)` call, modelled by the `none`
result — so the failure is not retried on a later broadcast. -/
theorem C7_counterexample :
    (creationPass (fun _ => false) [⟨10, 110, "x", 1, 3⟩] (fun _ => false)).isNone = true := by
  decide

/-- C7, amended: whenever the list reached by a creation pass contains an
alarm of a group whose `active_group_threads` cell is clear and whose spawn
attempt fails (`malloc` or `pthread_create`), the pass ends in `exit(1)` —
the `none` outcome — after printing the error; the process terminates
instead of retrying. -/
theorem C7_spawn_failure :
    ∀ (ok : Int → Bool) (l : List Alarm) (table : Int → Bool),
      (∃ a ∈ l, table a.groupId = false ∧ ok a.groupId = false) →
      creationPass ok l table = none := by
  intro ok l table h
  exact creationPass_fail ok l table h

/-- Witness for the amended C7 theorem at a concrete input. -/
theorem C7_spawn_failure_witness :
    creationPass (fun _ => false) [⟨10, 110, "y", 2, 5⟩] (fun _ => false) = none :=
  C7_spawn_failure (fun _ => false) [⟨10, 110, "y", 2, 5⟩] (fun _ => false)
    ⟨⟨10, 110, "y", 2, 5⟩, by simp, rfl, rfl⟩

/-- C8: one scan of a group's display thread reports exactly the alarms of
its group whose due time is at most the current time (in list order), and
rewrites the list by advancing exactly those alarms' due times to
`now + seconds`, keeping every other field and every other alarm unchanged. -/
theorem C8_display :
    ∀ (g now : Int) (l : List Alarm),
      (displayPass g now l).2
          = l.filter (fun a => decide (a.groupId = g ∧ a.time ≤ now))
      ∧ (displayPass g now l).1
          = l.map (fun a =>
              if a.groupId = g ∧ a.time ≤ now then { a with time := now + a.seconds }
              else a) := by
  intro g now l
  induction l with
  | nil => exact ⟨rfl, rfl⟩
  | cons a rest ih =>
      by_cases hc : a.groupId = g ∧ now ≥ a.time
      · have hc' : a.groupId = g ∧ a.time ≤ now := ⟨hc.1, hc.2⟩
        constructor
        · simp only [displayPass, if_pos hc, List.filter_cons]
          rw [if_pos (by simpa using hc'), ih.1]
        · simp only [displayPass, if_pos hc, List.map_cons]
          rw [ih.2]
      · have hc' : ¬(a.groupId = g ∧ a.time ≤ now) := fun hh => hc ⟨hh.1, hh.2⟩
        constructor
        · simp only [displayPass, if_neg hc, List.filter_cons]
          rw [if_neg (by simpa using hc'), ih.1]
        · simp only [displayPass, if_neg hc, List.map_cons]
          rw [ih.2]

/-- C10, counterexample: the in-range invariant claimed for the alarm list
fails — processing the valid command `Start_Alarm(1): Group(300) 10 x` from
the initial state puts an alarm with `groupId = 300 ≥ MAX_GROUPS` on the
list, for which the supervisor loops' `active_group_threads[300]` access is
out of the 256-cell array's bounds. -/
theorem C10_counterexample :
    ((processAll 100 true [Request.startAlarm 1 300 10 "x"] coreInit).alarm_list.map
        Alarm.groupId) = [300]
    ∧ ¬ ((300 : Int) < MAX_GROUPS) := by
  decide

/-- C10, amended: command processing establishes only the lower bound — every
alarm on a list reached from a list of non-negative-group alarms has a
non-negative `groupId` — and the upper bound `groupId < MAX_GROUPS` is not
established: a state whose list holds an alarm with `groupId ≥ MAX_GROUPS`
is reachable by one valid command. -/
theorem C10_bounds :
    (∀ (now : Int) (allocOk : Bool) (rs : List Request) (s : CoreState),
      (∀ a ∈ s.alarm_list, 0 ≤ a.groupId) →
      ∀ a ∈ (processAll now allocOk rs s).alarm_list, 0 ≤ a.groupId)
    ∧ ∃ g ∈ (processAll 100 true [Request.startAlarm 2 300 10 "y"]
          coreInit).alarm_list.map Alarm.groupId,
        MAX_GROUPS ≤ g := by
  constructor
  · intro now allocOk rs s hs
    exact processAll_groupId_nonneg now allocOk rs s hs
  · exact ⟨300, by decide, by decide⟩

/-- Witness for the amended C10 theorem at a concrete input: the alarm
inserted by a valid `Start_Alarm(1): Group(300)` command has a non-negative
group id. -/
theorem C10_bounds_witness :
    (0 : Int) ≤ (Alarm.mk 10 (100 + 10) (("x" : String).take 63) 1 300).groupId :=
  C10_bounds.1 100 true [Request.startAlarm 1 300 10 "x"] coreInit
    (by intro a ha; cases ha)
    (Alarm.mk 10 (100 + 10) (("x" : String).take 63) 1 300)
    (by
      show _ ∈ (processRequest 100 true (Request.startAlarm 1 300 10 "x") coreInit).1.alarm_list
      rw [processRequest, if_neg (by decide)]
      show _ ∈ insert_alarm 100 true 1 300 10 "x" coreInit.alarm_list
      unfold insert_alarm
      rw [if_pos rfl]
      exact mem_insertById.mpr (Or.inl rfl))

/-- C4: preemption correctness of the alarm thread.  If the thread is in its
timed wait for an alarm `a1` (it holds `a1`, the list is otherwise empty and
`current_alarm = a1.time`) and an alarm `a2` with `a2.time < a1.time` is
inserted by `alarm_insert`, then the insert signals the condition variable,
and along every subsequent execution of the alarm thread the sequence of
fired alarms is a prefix of `[a2, a1]`: the wakeup is never treated as
expiry of `a1`, `a1` is requeued behind `a2`, and `a2` fires before `a1` —
never the reverse. -/
theorem C4_preemption :
    ∀ (a1 a2 : Alarm) (n0 : Int), a2.time < a1.time →
      (alarm_insert a2 [] a1.time).2 = Wake.signalOne
      ∧ ∀ c : DConfig,
          Relation.ReflTransGen DStep
            ⟨((alarm_insert a2 [] a1.time).1).1, ((alarm_insert a2 [] a1.time).1).2,
             DState.waiting a1, n0, []⟩ c →
          c.fired <+: [a2, a1] := by
  intro a1 a2 n0 hlt
  have hcond : a1.time = 0 ∨ a2.time < a1.time := Or.inr hlt
  have he : alarm_insert a2 [] a1.time = (([a2], a2.time), Wake.signalOne) := by
    unfold alarm_insert
    rw [if_pos hcond, insertByTime]
  constructor
  · rw [he]
  · intro c hr
    rw [he] at hr
    have hinv0 : DInv a1 a2 ⟨[a2], a2.time, DState.waiting a1, n0, []⟩ :=
      Or.inl ⟨rfl, rfl, rfl, ne_of_lt hlt⟩
    have hinv : DInv a1 a2 c := by
      induction hr with
      | refl => exact hinv0
      | tail hab hstep ih => exact DInv_step a1 a2 hlt hstep ih
    exact DInv_fired_prefix a1 a2 c hinv

/-- Witness for the C4 theorem at concrete inputs: inserting an alarm due at
5 while the thread waits for one due at 10 signals the condition variable,
and the initial configuration's fired list (empty) is a prefix of the
required firing order. -/
theorem C4_preemption_witness :
    (alarm_insert (Alarm.mk 0 5 "b" 2 0) [] (Alarm.mk 0 10 "a" 1 0).time).2
        = Wake.signalOne
    ∧ (DConfig.mk ((alarm_insert (Alarm.mk 0 5 "b" 2 0) [] (Alarm.mk 0 10 "a" 1 0).time).1.1)
          ((alarm_insert (Alarm.mk 0 5 "b" 2 0) [] (Alarm.mk 0 10 "a" 1 0).time).1.2)
          (DState.waiting (Alarm.mk 0 10 "a" 1 0)) 0 []).fired
        <+: [Alarm.mk 0 5 "b" 2 0, Alarm.mk 0 10 "a" 1 0] :=
  ⟨(C4_preemption (Alarm.mk 0 10 "a" 1 0) (Alarm.mk 0 5 "b" 2 0) 0 (by decide)).1,
   (C4_preemption (Alarm.mk 0 10 "a" 1 0) (Alarm.mk 0 5 "b" 2 0) 0 (by decide)).2 _
     Relation.ReflTransGen.refl⟩

/-- C5: in every state reachable by interleaving validated inserts,
completed creation passes and removal passes, no group ever has more than
one live display thread; moreover a creation pass spawns only for groups
whose table cell was clear, marks exactly those cells, and a repeated pass
over the unchanged registry spawns nothing. -/
theorem C5_workers :
    ∀ (s : SysState), SysReach s →
      (∀ g, s.live g ≤ 1)
      ∧ (∀ (ok t : Int → Bool) (sp : List Int),
          creationPass ok s.list s.table = some (t, sp) →
          (∀ g ∈ sp, s.table g = false ∧ t g = true)
          ∧ (∀ ok2 : Int → Bool, creationPass ok2 s.list t = some (t, []))) := by
  intro s hs
  have hin := sysInv_reach hs
  constructor
  · intro g
    rw [(hin g).2]
    split
    · exact le_refl 1
    · exact Nat.zero_le 1
  · intro ok t sp hcp
    obtain ⟨hiff, hsp, hall, _⟩ := creationPass_spec ok s.list s.table t sp hcp
    constructor
    · intro g hg
      exact ⟨(hsp g hg).1, (hiff g).mpr (Or.inr hg)⟩
    · intro ok2
      exact creationPass_allActive ok2 s.list t hall

/-- Witness for the C5 theorem on a concrete two-step reachable state (one
validated insert from program start). -/
theorem C5_workers_witness :
    (SysState.mk (insert_alarm 100 true 1 3 10 "m" []) (fun _ => false)
        (fun _ => 0)).live 3 ≤ 1 :=
  (C5_workers (SysState.mk (insert_alarm 100 true 1 3 10 "m" []) (fun _ => false)
      (fun _ => 0))
    (Relation.ReflTransGen.single
      (SysStep.insert sysInit 100 true 1 3 10 "m" (by decide)))).1 3
